import Mathlib

/-!
Shallow embedding of the min/max expression evaluator (`MiniMaxParser` in
`src/ИКМ.py`).  Strings are modelled as `List Char`; the mixed-type Python
stack (ints and the operator characters `'m'`/`'M'`) is modelled by the tagged
union `Cell`; every `raise ValueError` in the source becomes a constructor of
`Err`.  All definitions follow the source line by line; definitions written
from the wording of the specification (for refinement claims) carry `Spec` in
their name.
-/

namespace MiniMax

/-- The error taxonomy: one constructor per distinct `ValueError` raised by
`_validate_expression` / `evaluate` in the source. -/
inductive Err where
  | EmptyExpression
  | InvalidCharacter (c : Char)
  | UnmatchedClosingParen
  | UnbalancedParens
  | NoOperator
  | NegativeNumberNotAllowed
  | NonIntegerNotAllowed
  | InsufficientOperands
  | NonIntegerOperand
  | MalformedOperatorPlacement
  | UnexpectedCharacter (c : Char)
  | NoResult
  | ExtraArguments
deriving DecidableEq, Repr

/-- A cell of the evaluation stack: the Python list holds either an `int`
(pushed for digit runs and reductions) or an operator character `'m'`/`'M'`. -/
inductive Cell where
  | int (n : Nat)
  | op (c : Char)
deriving DecidableEq, Repr

/-- The allowed character set `ALLOWED_CHARS = set("0123456789mM(),-.")` (source line 49). -/
def ALLOWED_CHARS : List Char :=
  ['0', '1', '2', '3', '4', '5', '6', '7', '8', '9',
   'm', 'M', '(', ')', ',', '-', '.']

/-- The character-set loop of `_validate_expression` (source lines 69-71):
returns the first character outside `ALLOWED_CHARS`, if any. -/
def findInvalidChar : List Char → Option Char
  | [] => none
  | c :: rest => if c ∈ ALLOWED_CHARS then findInvalidChar rest else some c

/-- The parenthesis-balance loop of `_validate_expression` (source lines
73-82): running balance incremented on `'('`, decremented on `')'`; an error
as soon as the balance would go negative, and at the end if it is nonzero. -/
def balanceScan : List Char → Int → Except Err Unit
  | [], bal => if bal ≠ 0 then .error .UnbalancedParens else .ok ()
  | c :: rest, bal =>
    if c = '(' then balanceScan rest (bal + 1)
    else if c = ')' then
      if bal - 1 < 0 then .error .UnmatchedClosingParen
      else balanceScan rest (bal - 1)
    else balanceScan rest bal

/-- The validator `MiniMaxParser._validate_expression` (source lines 60-85): empty check,
character-set check, balance check, operator-presence check, in that order. -/
def validate (e : List Char) : Except Err Unit :=
  if e = [] then .error .EmptyExpression
  else
    match findInvalidChar e with
    | some c => .error (.InvalidCharacter c)
    | none =>
      match balanceScan e 0 with
      | .error err => .error err
      | .ok _ =>
        if ¬ ('m' ∈ e) ∧ ¬ ('M' ∈ e) then .error .NoOperator
        else .ok ()

/-- Value of `int(ch)` for a digit character. -/
def digitVal (c : Char) : Nat := c.toNat - '0'.toNat

/-- The inner loop of `_read_number` (source lines 98-112): accumulate
`num = num * 10 + digit` over the maximal digit run, returning the value and
the remaining characters (the position after the run). -/
def readNumber : Nat → List Char → Nat × List Char
  | num, [] => (num, [])
  | num, c :: rest =>
    if c.isDigit then readNumber (num * 10 + digitVal c) rest
    else (num, c :: rest)

/-- Test `i + 1 < len(expr) and expr[i+1].isdigit()` for the character after the
current one. -/
def nextIsDigit : List Char → Bool
  | [] => false
  | c :: _ => c.isDigit

/-- Test `i + 1 < len(expr) and expr[i+1] == '.'` for the character after the
current one. -/
def nextIsDot : List Char → Bool
  | [] => false
  | c :: _ => c = '.'

/-- The main `while i < len(self.expression)` loop of `evaluate` (source lines
114-156), acting on the remaining characters and the evaluation stack (top of
stack at the head of the list).  A digit run is consumed in one step via
`readNumber`, exactly as `_read_number` plus `continue` do in the source. -/
def scan (l : List Char) (st : List Cell) : Except Err (List Cell) :=
  match l, st with
  | [], st => .ok st
  | c :: rest, st =>
    if c = '-' ∧ nextIsDigit rest then .error .NegativeNumberNotAllowed
    else if c = '.' ∨ (c.isDigit ∧ nextIsDot rest) then .error .NonIntegerNotAllowed
    else if c.isDigit then
      scan (readNumber (digitVal c) rest).2 (.int (readNumber (digitVal c) rest).1 :: st)
    else if c = 'm' ∨ c = 'M' then scan rest (.op c :: st)
    else if c = ')' then
      match st with
      | b :: a :: opc :: restStack =>
        match a, b with
        | .int x, .int y =>
          match opc with
          | .op oc =>
            if oc = 'm' then scan rest (.int (min x y) :: restStack)
            else if oc = 'M' then scan rest (.int (max x y) :: restStack)
            else .error .MalformedOperatorPlacement
          | .int _ => .error .MalformedOperatorPlacement
        | _, _ => .error .NonIntegerOperand
      | _ => .error .InsufficientOperands
    else if c = '(' ∨ c = ',' then scan rest st
    else .error (.UnexpectedCharacter c)
termination_by l.length
decreasing_by
all_goals simp only [List.length_cons]
· have h : ∀ (num : Nat) (l2 : List Char),
      (readNumber num l2).2.length ≤ l2.length := by
    intro num l2
    induction l2 generalizing num with
    | nil => simp [readNumber]
    | cons c2 rest2 ih =>
      by_cases hd : c2.isDigit
      · simp only [readNumber, hd, if_pos]
        exact Nat.le_succ_of_le (ih _)
      · simp [readNumber, hd]
  exact Nat.lt_succ_of_le (h _ rest)
all_goals omega

/-- The epilogue of `evaluate` (source lines 158-166): empty stack is
`NoResult`; otherwise pop one cell as the result and fail with
`ExtraArguments` if anything remains. -/
def finish : List Cell → Except Err Cell
  | [] => .error .NoResult
  | r :: rest => if rest = [] then .ok r else .error .ExtraArguments

/-- The evaluator `MiniMaxParser.evaluate` (source lines 87-166): validate, then scan with
an initially empty stack, then the epilogue.  The result is the popped stack
cell (the source returns whatever `self._stack.pop()` yields). -/
def evaluate (e : List Char) : Except Err Cell :=
  match validate e with
  | .error err => .error err
  | .ok _ =>
    match scan e [] with
    | .error err => .error err
    | .ok st => finish st

/-- Fuel-indexed version of `scan`: one unit of fuel per iteration of the
main loop of the source, `none` on fuel exhaustion.  Used to show the loop
performs at most `l.length` iterations. -/
def scanFuel : Nat → List Char → List Cell → Option (Except Err (List Cell))
  | _, [], st => some (.ok st)
  | 0, _ :: _, _ => none
  | fuel + 1, c :: rest, st =>
    if c = '-' ∧ nextIsDigit rest then some (.error .NegativeNumberNotAllowed)
    else if c = '.' ∨ (c.isDigit ∧ nextIsDot rest) then some (.error .NonIntegerNotAllowed)
    else if c.isDigit then
      scanFuel fuel (readNumber (digitVal c) rest).2 (.int (readNumber (digitVal c) rest).1 :: st)
    else if c = 'm' ∨ c = 'M' then scanFuel fuel rest (.op c :: st)
    else if c = ')' then
      match st with
      | b :: a :: opc :: restStack =>
        match a, b with
        | .int x, .int y =>
          match opc with
          | .op oc =>
            if oc = 'm' then scanFuel fuel rest (.int (min x y) :: restStack)
            else if oc = 'M' then scanFuel fuel rest (.int (max x y) :: restStack)
            else some (.error .MalformedOperatorPlacement)
          | .int _ => some (.error .MalformedOperatorPlacement)
        | _, _ => some (.error .NonIntegerOperand)
      | _ => some (.error .InsufficientOperands)
    else if c = '(' ∨ c = ',' then scanFuel fuel rest st
    else some (.error (.UnexpectedCharacter c))

/-- The function `evaluate` computed through `scanFuel` with fuel `e.length`; evaluable by
`rfl`, used to settle concrete test cases. -/
def evaluateFuel (e : List Char) : Option (Except Err Cell) :=
  match validate e with
  | .error err => some (.error err)
  | .ok _ =>
    (scanFuel e.length e []).map fun r =>
      match r with
      | .error err => .error err
      | .ok st => finish st

/-- Recognizer for the `NoResult` outcome. -/
def isNoResult : Except Err Cell → Bool
  | .error .NoResult => true
  | _ => false

/-- The ten decimal digit characters. -/
def digitChars : List Char :=
  ['0', '1', '2', '3', '4', '5', '6', '7', '8', '9']

/-- Base-10 value of a digit string, accumulated exactly as `_read_number`
does (`value = value * 10 + digit`). -/
def digitsVal (ds : List Char) : Nat :=
  ds.foldl (fun a c => a * 10 + digitVal c) 0

/-- The grammar `E := digits | Op(E,E)` with `Op ∈ {m, M}`, together with the
min/max fold of the expression tree: `Gen s v` holds when the character
string `s` is generated by the grammar and its fold value is `v`. -/
inductive Gen : List Char → Nat → Prop where
  | num (ds : List Char) (hne : ds ≠ []) (hd : ∀ c ∈ ds, c ∈ digitChars) :
      Gen ds (digitsVal ds)
  | minNode {s t : List Char} {v w : Nat} (hs : Gen s v) (ht : Gen t w) :
      Gen ('m' :: '(' :: (s ++ ',' :: (t ++ [')']))) (min v w)
  | maxNode {s t : List Char} {v w : Nat} (hs : Gen s v) (ht : Gen t w) :
      Gen ('M' :: '(' :: (s ++ ',' :: (t ++ [')']))) (max v w)

/-- A list of characters that a generated sub-expression may be followed by
without disturbing the scan: empty, or starting with a non-digit other than
`'.'` (in context this is always `','` or `')'`). -/
def sepOk : List Char → Bool
  | [] => true
  | c :: _ => !c.isDigit && !(c = '.')

/-- Modelled from the claim wording for C4: the allowed character set
`{0-9, m, M, (, ), comma, -, .}`. -/
def allowedSpecChars : List Char :=
  ['0', '1', '2', '3', '4', '5', '6', '7', '8', '9',
   'm', 'M', '(', ')', ',', '-', '.']

/-- Modelled from the claim wording for C4: a left-to-right depth scan that
fails with `UnmatchedClosingParen` as soon as the depth goes negative and
with `UnbalancedParens` when the final depth is nonzero. -/
def depthScanSpec : List Char → Int → Except Err Unit
  | [], d => if d = 0 then .ok () else .error .UnbalancedParens
  | c :: rest, d =>
    let d2 := if c = '(' then d + 1 else if c = ')' then d - 1 else d
    if d2 < 0 then .error .UnmatchedClosingParen else depthScanSpec rest d2

/-- Modelled from the claim wording for C4: validation reports the first
violated rule in the fixed order empty / character set / parens / operator
presence. -/
def validateSpec (e : List Char) : Except Err Unit :=
  if e = [] then .error .EmptyExpression
  else
    match e.find? (fun c => decide (c ∉ allowedSpecChars)) with
    | some c => .error (.InvalidCharacter c)
    | none =>
      match depthScanSpec e 0 with
      | .error err => .error err
      | .ok _ =>
        if 'm' ∈ e ∨ 'M' ∈ e then .ok () else .error .NoOperator

/-- Modelled from the claim wording for C5: on `')'`, pop `b`, `a`, `op` in
that order; fewer than three cells is `InsufficientOperands`; a non-integer
`a` or `b` is `NonIntegerOperand`; an `op` that is not the tag `m` or `M` is
`MalformedOperatorPlacement`; otherwise push the operator applied to
`(a, b)`. -/
def closeParenSpec : List Cell → Except Err (List Cell)
  | b :: a :: opc :: restStack =>
    match a, b with
    | .int x, .int y =>
      match opc with
      | .op oc =>
        if oc = 'm' then .ok (.int (min x y) :: restStack)
        else if oc = 'M' then .ok (.int (max x y) :: restStack)
        else .error .MalformedOperatorPlacement
      | .int _ => .error .MalformedOperatorPlacement
    | _, _ => .error .NonIntegerOperand
  | _ => .error .InsufficientOperands

/-- Modelled from the claim wording for C6: an empty final stack is
`NoResult`; otherwise one cell is popped as the result and a still non-empty
stack is `ExtraArguments`. -/
def finishSpec : List Cell → Except Err Cell
  | [] => .error .NoResult
  | r :: rest => if rest.isEmpty then .ok r else .error .ExtraArguments

theorem readNumber_len (num : Nat) (l : List Char) :
    (readNumber num l).2.length ≤ l.length := by
  induction l generalizing num with
  | nil => simp [readNumber]
  | cons c rest ih =>
    by_cases hd : c.isDigit
    · simp only [readNumber, hd, if_pos]
      exact Nat.le_succ_of_le (ih _)
    · simp [readNumber, hd]

theorem readNumber_dropWhile (num : Nat) (l : List Char) :
    (readNumber num l).2 = l.dropWhile Char.isDigit := by
  induction l generalizing num with
  | nil => simp [readNumber]
  | cons c rest ih =>
    by_cases hd : c.isDigit
    · simp [readNumber, hd, List.dropWhile, ih]
    · simp [readNumber, hd, List.dropWhile]

theorem mem_dropWhile_of_not_digit {c : Char} {l : List Char}
    (hm : c ∈ l) (hc : c.isDigit = false) :
    c ∈ l.dropWhile Char.isDigit := by
  induction l with
  | nil => simp at hm
  | cons d rest ih =>
    by_cases hd : d.isDigit
    · rcases List.mem_cons.mp hm with h | h
      · subst h; rw [hc] at hd; simp at hd
      · simpa [List.dropWhile, hd] using ih h
    · simpa [List.dropWhile, hd] using hm

theorem scan_cons (c : Char) (rest : List Char) (st : List Cell) :
    scan (c :: rest) st =
      (if c = '-' ∧ nextIsDigit rest then .error .NegativeNumberNotAllowed
      else if c = '.' ∨ (c.isDigit ∧ nextIsDot rest) then .error .NonIntegerNotAllowed
      else if c.isDigit then
        scan (readNumber (digitVal c) rest).2 (.int (readNumber (digitVal c) rest).1 :: st)
      else if c = 'm' ∨ c = 'M' then scan rest (.op c :: st)
      else if c = ')' then
        match st with
        | b :: a :: opc :: restStack =>
          match a, b with
          | .int x, .int y =>
            match opc with
            | .op oc =>
              if oc = 'm' then scan rest (.int (min x y) :: restStack)
              else if oc = 'M' then scan rest (.int (max x y) :: restStack)
              else .error .MalformedOperatorPlacement
            | .int _ => .error .MalformedOperatorPlacement
          | _, _ => .error .NonIntegerOperand
        | _ => .error .InsufficientOperands
      else if c = '(' ∨ c = ',' then scan rest st
      else .error (.UnexpectedCharacter c)) := by
  rw [scan.eq_def]

theorem scan_nil (st : List Cell) : scan [] st = .ok st := by
  rw [scan.eq_def]

theorem scanFuel_cons (fuel : Nat) (c : Char) (rest : List Char) (st : List Cell) :
    scanFuel (fuel + 1) (c :: rest) st =
      (if c = '-' ∧ nextIsDigit rest then some (.error .NegativeNumberNotAllowed)
      else if c = '.' ∨ (c.isDigit ∧ nextIsDot rest) then some (.error .NonIntegerNotAllowed)
      else if c.isDigit then
        scanFuel fuel (readNumber (digitVal c) rest).2 (.int (readNumber (digitVal c) rest).1 :: st)
      else if c = 'm' ∨ c = 'M' then scanFuel fuel rest (.op c :: st)
      else if c = ')' then
        match st with
        | b :: a :: opc :: restStack =>
          match a, b with
          | .int x, .int y =>
            match opc with
            | .op oc =>
              if oc = 'm' then scanFuel fuel rest (.int (min x y) :: restStack)
              else if oc = 'M' then scanFuel fuel rest (.int (max x y) :: restStack)
              else some (.error .MalformedOperatorPlacement)
            | .int _ => some (.error .MalformedOperatorPlacement)
          | _, _ => some (.error .NonIntegerOperand)
        | _ => some (.error .InsufficientOperands)
      else if c = '(' ∨ c = ',' then scanFuel fuel rest st
      else some (.error (.UnexpectedCharacter c))) := by
  rw [scanFuel.eq_def]

theorem scanFuel_eq :
    ∀ (fuel : Nat) (l : List Char) (st : List Cell),
      l.length ≤ fuel → scanFuel fuel l st = some (scan l st) := by
  intro fuel
  induction fuel with
  | zero =>
    intro l st h
    match l with
    | [] => rw [scan_nil]; rfl
    | c :: rest => simp at h
  | succ f ih =>
    intro l st h
    match l with
    | [] => rw [scan_nil]; rfl
    | c :: rest =>
      rw [scanFuel_cons, scan_cons]
      have hr : rest.length ≤ f := by simpa using h
      split_ifs with h1 h2 h3 h4 h5 h6
      · rfl
      · rfl
      · exact ih _ _ (le_trans (readNumber_len _ _) hr)
      · exact ih _ _ hr
      · match st with
        | [] => rfl
        | [b] => rfl
        | [b, a] => rfl
        | b :: a :: opc :: restStack =>
          match a, b with
          | .int x, .int y =>
            match opc with
            | .op oc =>
              by_cases hm : oc = 'm'
              · simp only [hm, if_pos]
                exact ih _ _ hr
              · by_cases hM : oc = 'M'
                · simp only [hm, hM, if_neg, if_pos, if_true, if_false]
                  exact ih _ _ hr
                · simp [hm, hM]
            | .int n => rfl
          | .int x, .op o => rfl
          | .op o, .int y => rfl
          | .op o, .op o2 => rfl
      · exact ih _ _ hr
      · rfl

theorem evaluateFuel_eq (e : List Char) : evaluateFuel e = some (evaluate e) := by
  unfold evaluateFuel evaluate
  cases hv : validate e with
  | error err => rfl
  | ok u =>
    rw [scanFuel_eq e.length e [] (le_refl _)]
    cases hs : scan e [] <;> rfl

theorem evaluate_of_fuel {e : List Char} {r : Except Err Cell}
    (h : evaluateFuel e = some r) : evaluate e = r := by
  have h2 := evaluateFuel_eq e
  rw [h] at h2
  exact (Option.some.inj h2).symm

theorem scan_op_step (c : Char) (rest : List Char) (st : List Cell)
    (h : c = 'm' ∨ c = 'M') :
    scan (c :: rest) st = scan rest (.op c :: st) := by
  rcases h with h | h <;> subst h <;> rw [scan_cons] <;> rfl

theorem scan_skip_step (c : Char) (rest : List Char) (st : List Cell)
    (h : c = '(' ∨ c = ',') :
    scan (c :: rest) st = scan rest st := by
  rcases h with h | h <;> subst h <;> rw [scan_cons] <;> rfl

theorem scan_of_fuel {f : Nat} {l : List Char} {st : List Cell}
    {r : Except Err (List Cell)}
    (h : scanFuel f l st = some r) (hf : l.length ≤ f) : scan l st = r := by
  have h2 := scanFuel_eq f l st hf
  rw [h] at h2
  exact (Option.some.inj h2).symm

/-- C5: on `')'` the scan pops three cells `b`, `a`, `op` in that order;
fewer than three cells is `InsufficientOperands`, a non-integer operand is
`NonIntegerOperand`, a non-operator third cell is
`MalformedOperatorPlacement`, and otherwise the operator (min for `m`, max
for `M`) is applied to `(a, b)` and the resulting integer pushed back. -/
theorem claim_C5 (rest : List Char) (st : List Cell) :
    scan (')' :: rest) st = (closeParenSpec st).bind fun s => scan rest s := by
  rw [scan_cons]
  match st with
  | [] => rfl
  | [b] => rfl
  | [b, a] => rfl
  | b :: a :: opc :: restStack =>
    match a, b with
    | .int x, .int y =>
      match opc with
      | .op oc =>
        by_cases hm : oc = 'm'
        · simp only [closeParenSpec, hm, if_pos]
          rfl
        · by_cases hM : oc = 'M'
          · simp only [closeParenSpec, if_neg hm, hM, if_pos, if_true, if_false]
            rfl
          · simp only [closeParenSpec, if_neg hm, if_neg hM]
            rfl
      | .int n => rfl
    | .int x, .op o => rfl
    | .op o, .int y => rfl
    | .op o, .op o2 => rfl

/-- C6: after the scan of a validated expression completes without error, an
empty stack yields `NoResult`, one cell is popped as the result, and a still
non-empty stack yields `ExtraArguments`; in particular `M(1,2)3` fails with
`ExtraArguments`. -/
theorem claim_C6 :
    (∀ (e : List Char) (st : List Cell), validate e = .ok () →
      scan e [] = .ok st → evaluate e = finishSpec st) ∧
    evaluate (String.toList "M(1,2)3") = .error .ExtraArguments := by
  constructor
  · intro e st hv hs
    simp only [evaluate, hv, hs]
    match st with
    | [] => rfl
    | [r] => rfl
    | r :: s :: rest2 => rfl
  · exact evaluate_of_fuel rfl

theorem claim_C6_witness :
    evaluate (String.toList "M(1,2)3") = finishSpec [Cell.int 3, Cell.int 2] :=
  claim_C6.1 (String.toList "M(1,2)3") [Cell.int 3, Cell.int 2] rfl
    (scan_of_fuel (f := 7) rfl (by decide))

/-- C7: during the scan, a `'-'` immediately followed by a digit fails with
`NegativeNumberNotAllowed`, and a `'.'`, or a digit immediately followed by
`'.'`, fails with `NonIntegerNotAllowed`; in particular `M(-1,2)` fails with
`NegativeNumberNotAllowed` and `M(1.5,2)` with `NonIntegerNotAllowed`. -/
theorem claim_C7 :
    (∀ (rest : List Char) (st : List Cell), nextIsDigit rest = true →
      scan ('-' :: rest) st = .error .NegativeNumberNotAllowed) ∧
    (∀ (rest : List Char) (st : List Cell),
      scan ('.' :: rest) st = .error .NonIntegerNotAllowed) ∧
    (∀ (c : Char) (rest : List Char) (st : List Cell), c.isDigit = true →
      nextIsDot rest = true → scan (c :: rest) st = .error .NonIntegerNotAllowed) ∧
    evaluate (String.toList "M(-1,2)") = .error .NegativeNumberNotAllowed ∧
    evaluate (String.toList "M(1.5,2)") = .error .NonIntegerNotAllowed := by
  refine ⟨?_, ?_, ?_, evaluate_of_fuel rfl, evaluate_of_fuel rfl⟩
  · intro rest st h
    rw [scan_cons, if_pos ⟨rfl, h⟩]
  · intro rest st
    rw [scan_cons, if_neg (fun h => absurd h.1 (by decide)), if_pos (Or.inl rfl)]
  · intro c rest st hd hdot
    rw [scan_cons,
      if_neg (fun h => by rw [h.1] at hd; exact absurd hd (by decide)),
      if_pos (Or.inr ⟨hd, hdot⟩)]

theorem claim_C7_witness :
    scan ['-', '1'] [] = .error .NegativeNumberNotAllowed ∧
    scan ['.'] [] = .error .NonIntegerNotAllowed ∧
    scan ['1', '.'] [] = .error .NonIntegerNotAllowed :=
  ⟨claim_C7.1 ['1'] [] rfl, claim_C7.2.1 [] [],
    claim_C7.2.2.1 '1' ['.'] [] rfl rfl⟩

/-- C2 (code bug): `evaluate` is declared `-> int` in the source, yet on the
validated input `"m"` it returns the operator tag `'m'` — the scan pushes the
tag, the epilogue pops it as the result without any integer check. -/
theorem claim_C2_bug : evaluate ['m'] = .ok (.op 'm') :=
  evaluate_of_fuel rfl

/-- C8: `M(15,m(16,8))` evaluates to `15` and `m(3,m(7,2))` evaluates
to `2`. -/
theorem claim_C8 :
    evaluate (String.toList "M(15,m(16,8))") = .ok (.int 15) ∧
    evaluate (String.toList "m(3,m(7,2))") = .ok (.int 2) :=
  ⟨evaluate_of_fuel rfl, evaluate_of_fuel rfl⟩

/-- C9: the scan terminates within `l.length` loop iterations (one unit of
fuel per iteration suffices), and the digit-lexing inner loop never moves the
position backwards. -/
theorem claim_C9 :
    (∀ (l : List Char) (st : List Cell), scanFuel l.length l st = some (scan l st)) ∧
    (∀ (num : Nat) (l : List Char), (readNumber num l).2.length ≤ l.length) :=
  ⟨fun l st => scanFuel_eq l.length l st (le_refl _), readNumber_len⟩

theorem findInvalidChar_none_iff (e : List Char) :
    findInvalidChar e = none ↔ ∀ c ∈ e, c ∈ ALLOWED_CHARS := by
  induction e with
  | nil => simp [findInvalidChar]
  | cons c rest ih =>
    by_cases hc : c ∈ ALLOWED_CHARS
    · simp [findInvalidChar, hc, ih]
    · simp [findInvalidChar, hc]

theorem balanceScan_err_cases {l : List Char} {d : Int} {err : Err}
    (h : balanceScan l d = .error err) :
    err = .UnmatchedClosingParen ∨ err = .UnbalancedParens := by
  induction l generalizing d with
  | nil =>
    simp only [balanceScan] at h
    split at h
    · exact Or.inr (Except.error.inj h).symm
    · simp at h
  | cons c rest ih =>
    simp only [balanceScan] at h
    split_ifs at h with h1 h2 h3
    · exact ih h
    · exact Or.inl (Except.error.inj h).symm
    · exact ih h
    · exact ih h

theorem validate_err_cases {e : List Char} {err : Err}
    (h : validate e = .error err) :
    err = .EmptyExpression ∨ (∃ c, err = .InvalidCharacter c) ∨
      err = .UnmatchedClosingParen ∨ err = .UnbalancedParens ∨
      err = .NoOperator := by
  unfold validate at h
  by_cases he : e = []
  · rw [if_pos he] at h
    exact Or.inl (Except.error.inj h).symm
  · rw [if_neg he] at h
    cases hfind : findInvalidChar e with
    | some c =>
      rw [hfind] at h
      exact Or.inr (Or.inl ⟨c, (Except.error.inj h).symm⟩)
    | none =>
      rw [hfind] at h
      cases hbal : balanceScan e 0 with
      | error err2 =>
        rw [hbal] at h
        rcases balanceScan_err_cases hbal with h2 | h2 <;>
          rw [← (Except.error.inj h)] <;> simp [h2]
      | ok u =>
        rw [hbal] at h
        by_cases hop : ¬('m' ∈ e) ∧ ¬('M' ∈ e)
        · rw [if_pos hop] at h
          exact Or.inr (Or.inr (Or.inr (Or.inr (Except.error.inj h).symm)))
        · rw [if_neg hop] at h
          simp at h

theorem validate_ok_dest {e : List Char} (h : validate e = .ok ()) :
    (∀ c ∈ e, c ∈ ALLOWED_CHARS) ∧ ('m' ∈ e ∨ 'M' ∈ e) := by
  unfold validate at h
  by_cases he : e = []
  · rw [if_pos he] at h
    simp at h
  · rw [if_neg he] at h
    cases hfind : findInvalidChar e with
    | some c => rw [hfind] at h; simp at h
    | none =>
      rw [hfind] at h
      refine ⟨(findInvalidChar_none_iff e).mp hfind, ?_⟩
      cases hbal : balanceScan e 0 with
      | error err2 => rw [hbal] at h; simp at h
      | ok u =>
        rw [hbal] at h
        by_cases hop : ¬('m' ∈ e) ∧ ¬('M' ∈ e)
        · rw [if_pos hop] at h; simp at h
        · tauto

theorem findInvalidChar_eq_find (e : List Char) :
    findInvalidChar e = e.find? (fun c => decide (c ∉ allowedSpecChars)) := by
  induction e with
  | nil => simp [findInvalidChar]
  | cons c rest ih =>
    by_cases hc : c ∈ ALLOWED_CHARS
    · have hc2 : c ∈ allowedSpecChars := hc
      rw [List.find?_cons_of_neg _ (by simpa using hc2)]
      simpa [findInvalidChar, hc] using ih
    · have hc2 : c ∉ allowedSpecChars := hc
      rw [List.find?_cons_of_pos _ (by simpa using hc2)]
      simp [findInvalidChar, hc]

theorem balanceScan_eq_depthScanSpec :
    ∀ (l : List Char) (d : Int), 0 ≤ d → balanceScan l d = depthScanSpec l d := by
  intro l
  induction l with
  | nil =>
    intro d hd
    by_cases h0 : d = 0 <;> simp [balanceScan, depthScanSpec, h0]
  | cons c rest ih =>
    intro d hd
    by_cases h1 : c = '('
    · subst h1
      have hlt : ¬ ((d + 1 : Int) < 0) := by omega
      simp only [balanceScan, depthScanSpec, if_true, eq_self_iff_true, if_neg hlt]
      exact ih (d + 1) (by omega)
    · by_cases h2 : c = ')'
      · subst h2
        have e1 : balanceScan (')' :: rest) d =
            (if d - 1 < 0 then .error .UnmatchedClosingParen
            else balanceScan rest (d - 1)) := by
          simp [balanceScan]
        have e2 : depthScanSpec (')' :: rest) d =
            (if d - 1 < 0 then .error .UnmatchedClosingParen
            else depthScanSpec rest (d - 1)) := by
          simp [depthScanSpec]
        rw [e1, e2]
        by_cases hlt : (d - 1 : Int) < 0
        · rw [if_pos hlt, if_pos hlt]
        · rw [if_neg hlt, if_neg hlt]
          exact ih (d - 1) (by omega)
      · have hge : ¬ (d < 0) := by omega
        simp only [balanceScan, depthScanSpec, if_neg h1, if_neg h2, if_neg hge]
        exact ih d hd

/-- C4: validation reports the first violated rule in the fixed order
empty / first invalid character / depth scan (negative depth, then nonzero
final depth) / operator presence, exactly as the claim states it. -/
theorem claim_C4 (e : List Char) : validate e = validateSpec e := by
  unfold validate validateSpec
  by_cases he : e = []
  · simp [he]
  · rw [if_neg he, if_neg he, ← findInvalidChar_eq_find]
    cases hfind : findInvalidChar e with
    | some c => rfl
    | none =>
      rw [← balanceScan_eq_depthScanSpec e 0 (le_refl 0)]
      cases hbal : balanceScan e 0 with
      | error err => rfl
      | ok u =>
        cases u
        by_cases hop : 'm' ∈ e ∨ 'M' ∈ e
        · have hneg : ¬(¬('m' ∈ e) ∧ ¬('M' ∈ e)) := by tauto
          rw [if_neg hneg, if_pos hop]
        · have hpos : ¬('m' ∈ e) ∧ ¬('M' ∈ e) := by tauto
          rw [if_pos hpos, if_neg hop]

theorem scan_neg_step (c : Char) (rest : List Char) (st : List Cell)
    (h : c = '-' ∧ nextIsDigit rest = true) :
    scan (c :: rest) st = .error .NegativeNumberNotAllowed := by
  rw [scan_cons, if_pos h]

theorem scan_dot_step (c : Char) (rest : List Char) (st : List Cell)
    (h1 : ¬(c = '-' ∧ nextIsDigit rest = true))
    (h2 : c = '.' ∨ (c.isDigit = true ∧ nextIsDot rest = true)) :
    scan (c :: rest) st = .error .NonIntegerNotAllowed := by
  rw [scan_cons, if_neg h1, if_pos h2]

theorem scan_digit_step (c : Char) (rest : List Char) (st : List Cell)
    (h1 : ¬(c = '-' ∧ nextIsDigit rest = true))
    (h2 : ¬(c = '.' ∨ (c.isDigit = true ∧ nextIsDot rest = true)))
    (h3 : c.isDigit = true) :
    scan (c :: rest) st =
      scan (readNumber (digitVal c) rest).2
        (.int (readNumber (digitVal c) rest).1 :: st) := by
  rw [scan_cons, if_neg h1, if_neg h2, if_pos h3]

theorem scan_close_min (rest : List Char) (x y : Nat) (restStack : List Cell) :
    scan (')' :: rest) (.int y :: .int x :: .op 'm' :: restStack) =
      scan rest (.int (min x y) :: restStack) := by
  rw [scan_cons]
  rfl

theorem scan_close_max (rest : List Char) (x y : Nat) (restStack : List Cell) :
    scan (')' :: rest) (.int y :: .int x :: .op 'M' :: restStack) =
      scan rest (.int (max x y) :: restStack) := by
  rw [scan_cons]
  rfl

theorem scan_close_badop (rest : List Char) (x y : Nat) (oc : Char)
    (restStack : List Cell) (hm : ¬ oc = 'm') (hM : ¬ oc = 'M') :
    scan (')' :: rest) (.int y :: .int x :: .op oc :: restStack) =
      .error .MalformedOperatorPlacement := by
  rw [scan_cons]
  show (if oc = 'm' then scan rest (.int (min x y) :: restStack)
      else if oc = 'M' then scan rest (.int (max x y) :: restStack)
      else .error .MalformedOperatorPlacement) = .error .MalformedOperatorPlacement
  rw [if_neg hm, if_neg hM]

theorem scan_close_intop (rest : List Char) (x y n : Nat)
    (restStack : List Cell) :
    scan (')' :: rest) (.int y :: .int x :: .int n :: restStack) =
      .error .MalformedOperatorPlacement := by
  rw [scan_cons]
  rfl

theorem scan_close_a_op (rest : List Char) (b : Cell) (o : Char)
    (opc : Cell) (restStack : List Cell) :
    scan (')' :: rest) (b :: .op o :: opc :: restStack) =
      .error .NonIntegerOperand := by
  rw [scan_cons]
  cases b <;> rfl

theorem scan_close_b_op (rest : List Char) (o : Char) (x : Nat)
    (opc : Cell) (restStack : List Cell) :
    scan (')' :: rest) (.op o :: .int x :: opc :: restStack) =
      .error .NonIntegerOperand := by
  rw [scan_cons]
  rfl

theorem scan_close_nil (rest : List Char) :
    scan (')' :: rest) [] = .error .InsufficientOperands := by
  rw [scan_cons]
  rfl

theorem scan_close_one (rest : List Char) (b : Cell) :
    scan (')' :: rest) [b] = .error .InsufficientOperands := by
  rw [scan_cons]
  rfl

theorem scan_close_two (rest : List Char) (b a : Cell) :
    scan (')' :: rest) [b, a] = .error .InsufficientOperands := by
  rw [scan_cons]
  rfl

theorem scan_other_step (c : Char) (rest : List Char) (st : List Cell)
    (h1 : ¬(c = '-' ∧ nextIsDigit rest = true))
    (h2 : ¬(c = '.' ∨ (c.isDigit = true ∧ nextIsDot rest = true)))
    (h3 : ¬ c.isDigit = true) (h4 : ¬(c = 'm' ∨ c = 'M'))
    (h5 : ¬ c = ')') (h6 : ¬(c = '(' ∨ c = ',')) :
    scan (c :: rest) st = .error (.UnexpectedCharacter c) := by
  rw [scan_cons, if_neg h1, if_neg h2, if_neg h3, if_neg h4, if_neg h5, if_neg h6]

theorem scan_ne_noResult :
    ∀ (l : List Char) (st : List Cell), scan l st = .error .NoResult → False := by
  intro l st
  induction l, st using scan.induct with
  | case1 st =>
    intro h; rw [scan_nil] at h; simp at h
  | case2 c rest st h1 =>
    intro h; rw [scan_neg_step _ _ _ h1] at h; simp at h
  | case3 c rest st h1 h2 =>
    intro h; rw [scan_dot_step _ _ _ h1 h2] at h; simp at h
  | case4 c rest st h1 h2 h3 ih =>
    intro h; rw [scan_digit_step _ _ _ h1 h2 h3] at h; exact ih h
  | case5 c rest st h1 h2 h3 h4 ih =>
    intro h; rw [scan_op_step _ _ _ h4] at h; exact ih h
  | case6 rest restStack x y hn1 hn2 hn3 hn4 ih =>
    intro h; rw [scan_close_min] at h; exact ih h
  | case7 rest restStack x y hn1 hn2 hn3 hn4 hn5 ih =>
    intro h; rw [scan_close_max] at h; exact ih h
  | case8 rest restStack x y oc hm hM hn1 hn2 hn3 hn4 =>
    intro h; rw [scan_close_badop _ _ _ _ _ hm hM] at h; simp at h
  | case9 rest restStack x y n hn1 hn2 hn3 hn4 =>
    intro h; rw [scan_close_intop] at h; simp at h
  | case10 rest b a opc restStack hab hn1 hn2 hn3 hn4 =>
    intro h
    cases a with
    | op o => rw [scan_close_a_op] at h; simp at h
    | int x =>
      cases b with
      | op o => rw [scan_close_b_op] at h; simp at h
      | int y => exact hab x y rfl rfl
  | case11 rest st hshape hn1 hn2 hn3 hn4 =>
    intro h
    rcases st with _ | ⟨b, _ | ⟨a, _ | ⟨opc, rs⟩⟩⟩
    · rw [scan_close_nil] at h; simp at h
    · rw [scan_close_one] at h; simp at h
    · rw [scan_close_two] at h; simp at h
    · exact hshape b a opc rs rfl
  | case12 c rest st h1 h2 h3 h4 h5 h6 ih =>
    intro h; rw [scan_skip_step _ _ _ h6] at h; exact ih h
  | case13 c rest st h1 h2 h3 h4 h5 h6 =>
    intro h; rw [scan_other_step c rest st h1 h2 h3 h4 h5 h6] at h; simp at h

theorem scan_unexpected_dash :
    ∀ (l : List Char) (st : List Cell), (∀ x ∈ l, x ∈ ALLOWED_CHARS) →
      ∀ c, scan l st = .error (.UnexpectedCharacter c) → c = '-' := by
  intro l st
  induction l, st using scan.induct with
  | case1 st =>
    intro hall c h; rw [scan_nil] at h; simp at h
  | case2 c0 rest st h1 =>
    intro hall c h; rw [scan_neg_step _ _ _ h1] at h; simp at h
  | case3 c0 rest st h1 h2 =>
    intro hall c h; rw [scan_dot_step _ _ _ h1 h2] at h; simp at h
  | case4 c0 rest st h1 h2 h3 ih =>
    intro hall c h
    rw [scan_digit_step _ _ _ h1 h2 h3] at h
    refine ih ?_ c h
    intro x hx
    apply hall
    rw [readNumber_dropWhile] at hx
    exact List.mem_cons_of_mem _ ((List.dropWhile_sublist _).subset hx)
  | case5 c0 rest st h1 h2 h3 h4 ih =>
    intro hall c h
    rw [scan_op_step _ _ _ h4] at h
    exact ih (fun x hx => hall x (List.mem_cons_of_mem _ hx)) c h
  | case6 rest restStack x y hn1 hn2 hn3 hn4 ih =>
    intro hall c h
    rw [scan_close_min] at h
    exact ih (fun z hz => hall z (List.mem_cons_of_mem _ hz)) c h
  | case7 rest restStack x y hn1 hn2 hn3 hn4 hn5 ih =>
    intro hall c h
    rw [scan_close_max] at h
    exact ih (fun z hz => hall z (List.mem_cons_of_mem _ hz)) c h
  | case8 rest restStack x y oc hm hM hn1 hn2 hn3 hn4 =>
    intro hall c h; rw [scan_close_badop _ _ _ _ _ hm hM] at h; simp at h
  | case9 rest restStack x y n hn1 hn2 hn3 hn4 =>
    intro hall c h; rw [scan_close_intop] at h; simp at h
  | case10 rest b a opc restStack hab hn1 hn2 hn3 hn4 =>
    intro hall c h
    cases a with
    | op o => rw [scan_close_a_op] at h; simp at h
    | int x =>
      cases b with
      | op o => rw [scan_close_b_op] at h; simp at h
      | int y => exact (hab x y rfl rfl).elim
  | case11 rest st hshape hn1 hn2 hn3 hn4 =>
    intro hall c h
    rcases st with _ | ⟨b, _ | ⟨a, _ | ⟨opc, rs⟩⟩⟩
    · rw [scan_close_nil] at h; simp at h
    · rw [scan_close_one] at h; simp at h
    · rw [scan_close_two] at h; simp at h
    · exact (hshape b a opc rs rfl).elim
  | case12 c0 rest st h1 h2 h3 h4 h5 h6 ih =>
    intro hall c h
    rw [scan_skip_step _ _ _ h6] at h
    exact ih (fun x hx => hall x (List.mem_cons_of_mem _ hx)) c h
  | case13 c0 rest st h1 h2 h3 h4 h5 h6 =>
    intro hall c h
    rw [scan_other_step c0 rest st h1 h2 h3 h4 h5 h6] at h
    have hcc := Except.error.inj h
    have hc0 : c0 ∈ ALLOWED_CHARS := hall c0 (List.mem_cons_self c0 rest)
    obtain rfl : c0 = c := by injection hcc
    simp only [ALLOWED_CHARS, List.mem_cons, List.not_mem_nil, or_false] at hc0
    rcases hc0 with rfl|rfl|rfl|rfl|rfl|rfl|rfl|rfl|rfl|rfl|rfl|rfl|rfl|rfl|rfl|rfl|rfl
    all_goals first
      | rfl
      | exact ((h3 (by decide)).elim)
      | exact ((h2 (Or.inl rfl)).elim)
      | exact ((h4 (Or.inl rfl)).elim)
      | exact ((h4 (Or.inr rfl)).elim)
      | exact ((h5 rfl).elim)
      | exact ((h6 (Or.inl rfl)).elim)
      | exact ((h6 (Or.inr rfl)).elim)

theorem scan_ok_ne_nil :
    ∀ (l : List Char) (st : List Cell), st ≠ [] →
      ∀ st2, scan l st = .ok st2 → st2 ≠ [] := by
  intro l st
  induction l, st using scan.induct with
  | case1 st =>
    intro hne st2 h; rw [scan_nil] at h; exact (Except.ok.inj h) ▸ hne
  | case2 c0 rest st h1 =>
    intro hne st2 h; rw [scan_neg_step _ _ _ h1] at h; simp at h
  | case3 c0 rest st h1 h2 =>
    intro hne st2 h; rw [scan_dot_step _ _ _ h1 h2] at h; simp at h
  | case4 c0 rest st h1 h2 h3 ih =>
    intro hne st2 h
    rw [scan_digit_step _ _ _ h1 h2 h3] at h
    exact ih (List.cons_ne_nil _ _) st2 h
  | case5 c0 rest st h1 h2 h3 h4 ih =>
    intro hne st2 h
    rw [scan_op_step _ _ _ h4] at h
    exact ih (List.cons_ne_nil _ _) st2 h
  | case6 rest restStack x y hn1 hn2 hn3 hn4 ih =>
    intro hne st2 h
    rw [scan_close_min] at h
    exact ih (List.cons_ne_nil _ _) st2 h
  | case7 rest restStack x y hn1 hn2 hn3 hn4 hn5 ih =>
    intro hne st2 h
    rw [scan_close_max] at h
    exact ih (List.cons_ne_nil _ _) st2 h
  | case8 rest restStack x y oc hm hM hn1 hn2 hn3 hn4 =>
    intro hne st2 h; rw [scan_close_badop _ _ _ _ _ hm hM] at h; simp at h
  | case9 rest restStack x y n hn1 hn2 hn3 hn4 =>
    intro hne st2 h; rw [scan_close_intop] at h; simp at h
  | case10 rest b a opc restStack hab hn1 hn2 hn3 hn4 =>
    intro hne st2 h
    cases a with
    | op o => rw [scan_close_a_op] at h; simp at h
    | int x =>
      cases b with
      | op o => rw [scan_close_b_op] at h; simp at h
      | int y => exact (hab x y rfl rfl).elim
  | case11 rest st hshape hn1 hn2 hn3 hn4 =>
    intro hne st2 h
    rcases st with _ | ⟨b, _ | ⟨a, _ | ⟨opc, rs⟩⟩⟩
    · rw [scan_close_nil] at h; simp at h
    · rw [scan_close_one] at h; simp at h
    · rw [scan_close_two] at h; simp at h
    · exact (hshape b a opc rs rfl).elim
  | case12 c0 rest st h1 h2 h3 h4 h5 h6 ih =>
    intro hne st2 h
    rw [scan_skip_step _ _ _ h6] at h
    exact ih hne st2 h
  | case13 c0 rest st h1 h2 h3 h4 h5 h6 =>
    intro hne st2 h
    rw [scan_other_step c0 rest st h1 h2 h3 h4 h5 h6] at h
    simp at h

theorem scan_ok_ne_nil_op :
    ∀ (l : List Char) (st : List Cell), ('m' ∈ l ∨ 'M' ∈ l) →
      ∀ st2, scan l st = .ok st2 → st2 ≠ [] := by
  intro l st
  induction l, st using scan.induct with
  | case1 st =>
    intro hop st2 h; simp at hop
  | case2 c0 rest st h1 =>
    intro hop st2 h; rw [scan_neg_step _ _ _ h1] at h; simp at h
  | case3 c0 rest st h1 h2 =>
    intro hop st2 h; rw [scan_dot_step _ _ _ h1 h2] at h; simp at h
  | case4 c0 rest st h1 h2 h3 ih =>
    intro hop st2 h
    rw [scan_digit_step _ _ _ h1 h2 h3] at h
    exact scan_ok_ne_nil _ _ (List.cons_ne_nil _ _) st2 h
  | case5 c0 rest st h1 h2 h3 h4 ih =>
    intro hop st2 h
    rw [scan_op_step _ _ _ h4] at h
    exact scan_ok_ne_nil _ _ (List.cons_ne_nil _ _) st2 h
  | case6 rest restStack x y hn1 hn2 hn3 hn4 ih =>
    intro hop st2 h
    rw [scan_close_min] at h
    exact scan_ok_ne_nil _ _ (List.cons_ne_nil _ _) st2 h
  | case7 rest restStack x y hn1 hn2 hn3 hn4 hn5 ih =>
    intro hop st2 h
    rw [scan_close_max] at h
    exact scan_ok_ne_nil _ _ (List.cons_ne_nil _ _) st2 h
  | case8 rest restStack x y oc hm hM hn1 hn2 hn3 hn4 =>
    intro hop st2 h; rw [scan_close_badop _ _ _ _ _ hm hM] at h; simp at h
  | case9 rest restStack x y n hn1 hn2 hn3 hn4 =>
    intro hop st2 h; rw [scan_close_intop] at h; simp at h
  | case10 rest b a opc restStack hab hn1 hn2 hn3 hn4 =>
    intro hop st2 h
    cases a with
    | op o => rw [scan_close_a_op] at h; simp at h
    | int x =>
      cases b with
      | op o => rw [scan_close_b_op] at h; simp at h
      | int y => exact (hab x y rfl rfl).elim
  | case11 rest st hshape hn1 hn2 hn3 hn4 =>
    intro hop st2 h
    rcases st with _ | ⟨b, _ | ⟨a, _ | ⟨opc, rs⟩⟩⟩
    · rw [scan_close_nil] at h; simp at h
    · rw [scan_close_one] at h; simp at h
    · rw [scan_close_two] at h; simp at h
    · exact (hshape b a opc rs rfl).elim
  | case12 c0 rest st h1 h2 h3 h4 h5 h6 ih =>
    intro hop st2 h
    rw [scan_skip_step _ _ _ h6] at h
    rcases hop with hm | hM
    · rcases List.mem_cons.mp hm with heq | hmem
      · subst heq
        rcases h6 with h | h <;> exact absurd h (by decide)
      · exact ih (Or.inl hmem) st2 h
    · rcases List.mem_cons.mp hM with heq | hmem
      · subst heq
        rcases h6 with h | h <;> exact absurd h (by decide)
      · exact ih (Or.inr hmem) st2 h
  | case13 c0 rest st h1 h2 h3 h4 h5 h6 =>
    intro hop st2 h
    rw [scan_other_step c0 rest st h1 h2 h3 h4 h5 h6] at h
    simp at h

/-- C3 counterexample: `"m-"` passes validation, yet `evaluate` reaches the
defensive catch-all and fails with `UnexpectedCharacter '-'` — the branch is
reachable after validation, contrary to the claim. -/
theorem claim_C3_cex :
    validate (String.toList "m-") = .ok () ∧
    evaluate (String.toList "m-") = .error (.UnexpectedCharacter '-') :=
  ⟨rfl, evaluate_of_fuel rfl⟩

/-- C3 amended: post-validation the defensive catch-all can be reached, but
only at a `'-'` that is not immediately followed by a digit: any
`UnexpectedCharacter` failure of `evaluate` names the character `'-'`. -/
theorem claim_C3_amended (e : List Char) (c : Char)
    (h : evaluate e = .error (.UnexpectedCharacter c)) : c = '-' := by
  unfold evaluate at h
  cases hv : validate e with
  | error err =>
    rw [hv] at h
    have h2 := Except.error.inj h
    rcases validate_err_cases hv with h3 | ⟨c2, h3⟩ | h3 | h3 | h3 <;>
      rw [h3] at h2 <;> simp at h2
  | ok u =>
    cases u
    rw [hv] at h
    cases hs : scan e [] with
    | error err =>
      rw [hs] at h
      have h2 := Except.error.inj h
      rw [h2] at hs
      exact scan_unexpected_dash e [] (validate_ok_dest hv).1 c hs
    | ok st =>
      rw [hs] at h
      rcases st with _ | ⟨r, _ | ⟨s, rest2⟩⟩ <;> simp [finish] at h

theorem claim_C3_witness : '-' = '-' :=
  claim_C3_amended (String.toList "m-") '-' (evaluate_of_fuel rfl)

/-- C10: `evaluate` never fails with `NoResult`: validation guarantees an
operator character, the scan pushes it and a non-empty stack never becomes
empty again, so the final stack is non-empty whenever the scan succeeds. -/
theorem claim_C10 (e : List Char) : isNoResult (evaluate e) = false := by
  unfold evaluate
  cases hv : validate e with
  | error err =>
    rcases validate_err_cases hv with h | ⟨c, h⟩ | h | h | h <;> subst h <;> rfl
  | ok u =>
    cases u
    cases hs : scan e [] with
    | error err =>
      have hnr : err ≠ Err.NoResult := fun hh => scan_ne_noResult e [] (hh ▸ hs)
      cases err <;> first | rfl | exact absurd rfl hnr
    | ok st =>
      have hne : st ≠ [] :=
        scan_ok_ne_nil_op e [] (validate_ok_dest hv).2 st hs
      rcases st with _ | ⟨r, _ | ⟨s, rest2⟩⟩
      · exact absurd rfl hne
      · rfl
      · rfl

theorem digit_isDigit {c : Char} (h : c ∈ digitChars) : c.isDigit = true := by
  simp only [digitChars, List.mem_cons, List.not_mem_nil, or_false] at h
  rcases h with rfl|rfl|rfl|rfl|rfl|rfl|rfl|rfl|rfl|rfl <;> decide

theorem digit_ne_dot {c : Char} (h : c ∈ digitChars) : ¬ c = '.' := by
  simp only [digitChars, List.mem_cons, List.not_mem_nil, or_false] at h
  rcases h with rfl|rfl|rfl|rfl|rfl|rfl|rfl|rfl|rfl|rfl <;> decide

theorem digit_ne_dash {c : Char} (h : c ∈ digitChars) : ¬ c = '-' := by
  simp only [digitChars, List.mem_cons, List.not_mem_nil, or_false] at h
  rcases h with rfl|rfl|rfl|rfl|rfl|rfl|rfl|rfl|rfl|rfl <;> decide

theorem digit_mem_allowed {c : Char} (h : c ∈ digitChars) : c ∈ ALLOWED_CHARS := by
  simp only [digitChars, List.mem_cons, List.not_mem_nil, or_false] at h
  rcases h with rfl|rfl|rfl|rfl|rfl|rfl|rfl|rfl|rfl|rfl <;> decide

theorem digit_not_paren {c : Char} (h : c ∈ digitChars) :
    ¬ c = '(' ∧ ¬ c = ')' := by
  simp only [digitChars, List.mem_cons, List.not_mem_nil, or_false] at h
  rcases h with rfl|rfl|rfl|rfl|rfl|rfl|rfl|rfl|rfl|rfl <;> exact ⟨by decide, by decide⟩

theorem sepOk_parts {rest : List Char} (h : sepOk rest = true) :
    nextIsDigit rest = false ∧ nextIsDot rest = false := by
  rcases rest with _ | ⟨r, rs⟩
  · exact ⟨rfl, rfl⟩
  · simp only [sepOk, Bool.and_eq_true, Bool.not_eq_true'] at h
    refine ⟨h.1, ?_⟩
    simpa [nextIsDot] using h.2

theorem readNumber_digits :
    ∀ (ds : List Char) (num : Nat) (rest : List Char),
      (∀ c ∈ ds, c ∈ digitChars) → nextIsDigit rest = false →
      readNumber num (ds ++ rest) =
        (ds.foldl (fun a c => a * 10 + digitVal c) num, rest) := by
  intro ds
  induction ds with
  | nil =>
    intro num rest hall hnd
    rcases rest with _ | ⟨r, rs⟩
    · simp [readNumber]
    · have hr : r.isDigit = false := hnd
      simp [readNumber, hr]
  | cons d ds2 ih =>
    intro num rest hall hnd
    have hd : d.isDigit = true := digit_isDigit (hall d (List.mem_cons_self _ _))
    rw [List.cons_append]
    simp only [readNumber, hd, if_pos, List.foldl_cons]
    exact ih _ rest (fun c hc => hall c (List.mem_cons_of_mem _ hc)) hnd

theorem balanceScan_cons_open (r : List Char) (d : Int) :
    balanceScan ('(' :: r) d = balanceScan r (d + 1) := by
  simp [balanceScan]

theorem balanceScan_cons_close (r : List Char) (d : Int) (h : ¬ (d - 1 < 0)) :
    balanceScan (')' :: r) d = balanceScan r (d - 1) := by
  simp [balanceScan, h]

theorem balanceScan_cons_other (c : Char) (r : List Char) (d : Int)
    (h1 : ¬ c = '(') (h2 : ¬ c = ')') :
    balanceScan (c :: r) d = balanceScan r d := by
  simp [balanceScan, h1, h2]

theorem balance_digit_run :
    ∀ (ds : List Char), (∀ c ∈ ds, c ∈ digitChars) →
      ∀ (t : List Char) (d : Int), balanceScan (ds ++ t) d = balanceScan t d := by
  intro ds
  induction ds with
  | nil => intro hall t d; rfl
  | cons c ds2 ih =>
    intro hall t d
    have hp := digit_not_paren (hall c (List.mem_cons_self _ _))
    rw [List.cons_append, balanceScan_cons_other c _ d hp.1 hp.2]
    exact ih (fun x hx => hall x (List.mem_cons_of_mem _ hx)) t d

theorem gen_ne_nil {s : List Char} {v : Nat} (h : Gen s v) : s ≠ [] := by
  cases h with
  | num ds hne hd => exact hne
  | minNode hs ht => exact List.cons_ne_nil _ _
  | maxNode hs ht => exact List.cons_ne_nil _ _

theorem gen_allowed {s : List Char} {v : Nat} (h : Gen s v) :
    ∀ c ∈ s, c ∈ ALLOWED_CHARS := by
  induction h with
  | num ds hne hd =>
    intro c hc
    exact digit_mem_allowed (hd c hc)
  | minNode hs ht ihs iht =>
    intro c hc
    simp only [List.mem_cons, List.mem_append, List.not_mem_nil, or_false] at hc
    rcases hc with rfl | rfl | hc | rfl | hc | rfl
    · decide
    · decide
    · exact ihs c hc
    · decide
    · exact iht c hc
    · decide
  | maxNode hs ht ihs iht =>
    intro c hc
    simp only [List.mem_cons, List.mem_append, List.not_mem_nil, or_false] at hc
    rcases hc with rfl | rfl | hc | rfl | hc | rfl
    · decide
    · decide
    · exact ihs c hc
    · decide
    · exact iht c hc
    · decide

theorem gen_balance {s : List Char} {v : Nat} (h : Gen s v) :
    ∀ (t : List Char) (d : Int), 0 ≤ d →
      balanceScan (s ++ t) d = balanceScan t d := by
  induction h with
  | num ds hne hd =>
    intro t d hdle
    exact balance_digit_run ds hd t d
  | minNode hs ht ihs iht =>
    intro t d hdle
    rename_i s1 t1 v1 w1
    have e0 : ('m' :: '(' :: (s1 ++ ',' :: (t1 ++ [')']))) ++ t =
        'm' :: '(' :: (s1 ++ (',' :: (t1 ++ (')' :: t)))) := by simp
    rw [e0, balanceScan_cons_other 'm' _ d (by decide) (by decide),
      balanceScan_cons_open,
      ihs (',' :: (t1 ++ (')' :: t))) (d + 1) (by omega),
      balanceScan_cons_other ',' _ (d + 1) (by decide) (by decide),
      iht (')' :: t) (d + 1) (by omega),
      balanceScan_cons_close t (d + 1) (by omega)]
    congr 1
    omega
  | maxNode hs ht ihs iht =>
    intro t d hdle
    rename_i s1 t1 v1 w1
    have e0 : ('M' :: '(' :: (s1 ++ ',' :: (t1 ++ [')']))) ++ t =
        'M' :: '(' :: (s1 ++ (',' :: (t1 ++ (')' :: t)))) := by simp
    rw [e0, balanceScan_cons_other 'M' _ d (by decide) (by decide),
      balanceScan_cons_open,
      ihs (',' :: (t1 ++ (')' :: t))) (d + 1) (by omega),
      balanceScan_cons_other ',' _ (d + 1) (by decide) (by decide),
      iht (')' :: t) (d + 1) (by omega),
      balanceScan_cons_close t (d + 1) (by omega)]
    congr 1
    omega

theorem scan_gen {s : List Char} {v : Nat} (h : Gen s v) :
    ∀ (rest : List Char) (st : List Cell), sepOk rest = true →
      scan (s ++ rest) st = scan rest (.int v :: st) := by
  induction h with
  | num ds hne hd =>
    intro rest st hsep
    rcases ds with _ | ⟨d, ds2⟩
    · exact absurd rfl hne
    · have hdd : d ∈ digitChars := hd d (List.mem_cons_self _ _)
      have hdig : d.isDigit = true := digit_isDigit hdd
      have h1 : ¬(d = '-' ∧ nextIsDigit (ds2 ++ rest) = true) :=
        fun hx => digit_ne_dash hdd hx.1
      have hnd : nextIsDot (ds2 ++ rest) = false := by
        rcases ds2 with _ | ⟨d2, ds3⟩
        · simpa using (sepOk_parts hsep).2
        · have hne2 : ¬ d2 = '.' := digit_ne_dot (hd d2 (by simp))
          simp [nextIsDot, hne2]
      have h2 : ¬(d = '.' ∨ (d.isDigit = true ∧ nextIsDot (ds2 ++ rest) = true)) := by
        rintro (hx | ⟨_, hx⟩)
        · exact digit_ne_dot hdd hx
        · rw [hnd] at hx; simp at hx
      rw [List.cons_append, scan_digit_step d (ds2 ++ rest) st h1 h2 hdig,
        readNumber_digits ds2 (digitVal d) rest
          (fun c hc => hd c (List.mem_cons_of_mem _ hc)) (sepOk_parts hsep).1]
      have hv : digitsVal (d :: ds2) =
          ds2.foldl (fun a c => a * 10 + digitVal c) (digitVal d) := by
        simp [digitsVal, List.foldl_cons]
      rw [hv]
  | minNode hs ht ihs iht =>
    intro rest st hsep
    rename_i s1 t1 v1 w1
    have e0 : ('m' :: '(' :: (s1 ++ ',' :: (t1 ++ [')']))) ++ rest =
        'm' :: '(' :: (s1 ++ (',' :: (t1 ++ (')' :: rest)))) := by simp
    rw [e0, scan_op_step 'm' _ _ (Or.inl rfl),
      scan_skip_step '(' _ _ (Or.inl rfl),
      ihs (',' :: (t1 ++ (')' :: rest))) (.op 'm' :: st) rfl,
      scan_skip_step ',' _ _ (Or.inr rfl),
      iht (')' :: rest) (.int v1 :: .op 'm' :: st) rfl,
      scan_close_min]
  | maxNode hs ht ihs iht =>
    intro rest st hsep
    rename_i s1 t1 v1 w1
    have e0 : ('M' :: '(' :: (s1 ++ ',' :: (t1 ++ [')']))) ++ rest =
        'M' :: '(' :: (s1 ++ (',' :: (t1 ++ (')' :: rest)))) := by simp
    rw [e0, scan_op_step 'M' _ _ (Or.inr rfl),
      scan_skip_step '(' _ _ (Or.inl rfl),
      ihs (',' :: (t1 ++ (')' :: rest))) (.op 'M' :: st) rfl,
      scan_skip_step ',' _ _ (Or.inr rfl),
      iht (')' :: rest) (.int v1 :: .op 'M' :: st) rfl,
      scan_close_max]

/-- C1 counterexample: the bare digit string `"5"` is generated by the
grammar (`E := digits`), yet `evaluate` fails with `NoOperator` because
validation requires at least one `m`/`M`. -/
theorem claim_C1_cex : Gen ['5'] 5 ∧ evaluate ['5'] = .error .NoOperator := by
  constructor
  · exact Gen.num ['5'] (by simp) (by decide)
  · rfl

/-- C1 amended: for every expression generated by the grammar that contains
at least one operator (equivalently, whose top-level production is
`Op(E,E)`), `evaluate` succeeds and returns the min/max fold of the
expression tree.  Bare top-level digit strings instead fail with
`NoOperator`. -/
theorem claim_C1_amended (s : List Char) (v : Nat) (hg : Gen s v)
    (hop : 'm' ∈ s ∨ 'M' ∈ s) : evaluate s = .ok (.int v) := by
  have hfind : findInvalidChar s = none :=
    (findInvalidChar_none_iff s).mpr (gen_allowed hg)
  have hbal : balanceScan s 0 = .ok () := by
    have h2 := gen_balance hg [] 0 (le_refl 0)
    rw [List.append_nil] at h2
    rw [h2]
    rfl
  have hval : validate s = .ok () := by
    unfold validate
    rw [if_neg (gen_ne_nil hg), hfind, hbal, if_neg (by tauto)]
  have hscan : scan s [] = .ok [Cell.int v] := by
    have h2 := scan_gen hg [] [] rfl
    rw [List.append_nil] at h2
    rw [h2, scan_nil]
  simp only [evaluate, hval, hscan]
  rfl

theorem claim_C1_witness :
    evaluate (String.toList "m(3,m(7,2))") = .ok (.int 2) := by
  have h3 : Gen ['3'] 3 := Gen.num ['3'] (by simp) (by decide)
  have h7 : Gen ['7'] 7 := Gen.num ['7'] (by simp) (by decide)
  have h2 : Gen ['2'] 2 := Gen.num ['2'] (by simp) (by decide)
  have hin : Gen ('m' :: '(' :: (['7'] ++ ',' :: (['2'] ++ [')']))) (min 7 2) :=
    Gen.minNode h7 h2
  have hout :
      Gen ('m' :: '(' :: (['3'] ++ ',' ::
        (('m' :: '(' :: (['7'] ++ ',' :: (['2'] ++ [')']))) ++ [')'])))
        (min 3 (min 7 2)) :=
    Gen.minNode h3 hin
  have hres := claim_C1_amended _ _ hout (Or.inl (by simp))
  exact hres

end MiniMax
